import Mathlib

/-!
Verification of the city-based subsetting pipeline (`subset.py`).

The embedding follows the source line by line:
* `get_pk` / `discover_fk` model the `information_schema` introspection queries;
* `bfsRun` models the worklist loop (`while q:`) that computes the closure,
  with fetch failures and the possible `KeyError` made explicit via `Except`;
* `materialize` / `mainRun` model the target-side effects (truncation,
  per-row inserts with their `try/except`, per-table commits) as an event trace.
-/

/-- Scalar literal stored in a database cell. -/
inductive Lit where
  | n (v : Nat)
  | s (v : String)
deriving DecidableEq, Repr

/-- A cell value; `none` is SQL NULL. -/
abbrev Val := Option Lit

/-- A row as returned by a `dictionary=True` cursor: column name to value. -/
abbrev Row := List (String × Val)

/-- `row.get(c)`: the value of column `c`, `none` when the column is absent
(Python's `dict.get` returns `None` in both cases). -/
def rowGet : Row → String → Val
  | [], _ => none
  | (c', v) :: rest, c => if c' = c then v else rowGet rest c

/-- A Row Key: `tuple(row[c] for c in pk_cols)`. -/
abbrev RowKey := List Val

def rowKey (pk : List String) (r : Row) : RowKey :=
  pk.map (fun c => rowGet r c)

/-- SQL `=` in a `WHERE` clause: NULL compares equal to nothing. -/
def sqlEq : Val → Val → Bool
  | some a, some b => decide (a = b)
  | _, _ => false

/-- One row of `information_schema.KEY_COLUMN_USAGE` (the columns `get_pk` and
`discover_fk` read), restricted to the one schema the run works in. -/
structure KCURow where
  table_name : String
  constraint_name : String
  column_name : String
  ordinal_position : Nat
deriving DecidableEq, Repr

/-- `get_pk`: the PK column names of `table`, filtered from the catalog rows with
`CONSTRAINT_NAME='PRIMARY'` and ordered by `ORDINAL_POSITION`.  When the table is
unknown or has no PRIMARY constraint the query matches nothing and the result is
`[]` (the function has no failure path). -/
def get_pk (kcu : List KCURow) (table : String) : List String :=
  ((kcu.filter (fun r => decide (r.table_name = table) && decide (r.constraint_name = "PRIMARY"))).insertionSort
      (fun a b => a.ordinal_position ≤ b.ordinal_position)).map
    (fun r => r.column_name)

/-- One foreign-key row of `information_schema.KEY_COLUMN_USAGE` (those with a
non-null `REFERENCED_TABLE_NAME`), as read by `discover_fk`. -/
structure FKRow where
  table_name : String
  column_name : String
  referenced_table_name : String
  referenced_column_name : String
deriving DecidableEq, Repr

/-- A triple stored in the FK maps: `references[tbl]` holds
`(ref_tbl, col, ref_col)` and `referenced_by[ref_tbl]` holds `(tbl, col, ref_col)`. -/
abbrev RefTriple := String × String × String

/-- `defaultdict(list)`: map from table name to list of triples. -/
abbrev RefMap := List (String × List RefTriple)

/-- `m[key].append(v)` on a `defaultdict(list)`: extend the existing entry in
place, or create it (at the end, matching dict insertion order). -/
def mAppend (m : RefMap) (key : String) (v : RefTriple) : RefMap :=
  match m with
  | [] => [(key, [v])]
  | (k, vs) :: rest => if k = key then (k, vs ++ [v]) :: rest else (k, vs) :: mAppend rest key v

/-- `discover_fk`: one pass over the FK catalog rows, building the forward map
(`references`) and the backward map (`referenced_by`). -/
def discover_fk (rows : List FKRow) : RefMap × RefMap :=
  rows.foldl
    (fun acc r =>
      (mAppend acc.1 r.table_name (r.referenced_table_name, r.column_name, r.referenced_column_name),
       mAppend acc.2 r.referenced_table_name (r.table_name, r.column_name, r.referenced_column_name)))
    ([], [])

/-- Association-list lookup keyed by table name. -/
def alookup {β : Type} : List (String × β) → String → Option β
  | [], _ => none
  | (k, v) :: rest, key => if k = key then some v else alookup rest key

/-- `references.get(t, [])`. -/
def refGet (m : RefMap) (t : String) : List RefTriple := (alookup m t).getD []

/-- The source database as the traversal sees it: per-table row lists, the
introspection catalog, and which point queries fail (a raised
`mysql.connector` error on `execute`). -/
structure Source where
  tables : List (String × List Row)
  kcu : List KCURow
  fk : List FKRow
  failq : String → String → Val → Bool

def Source.rowsOf (src : Source) (t : String) : List Row := (alookup src.tables t).getD []

/-- `ensure_pk` / `get_pk(cursor, db, t)`: memoization of the pure catalog query
is semantically transparent, so the cache is elided. -/
def Source.pkOf (src : Source) (t : String) : List String := get_pk src.kcu t

def Source.refsMap (src : Source) : RefMap := (discover_fk src.fk).1

def Source.refsByMap (src : Source) : RefMap := (discover_fk src.fk).2

/-- One per-table slice of the collected set: Row Key to Row, in dict order. -/
abbrev Tbl := List (RowKey × Row)

instance : DecidableEq Tbl := inferInstanceAs (DecidableEq (List (RowKey × Row)))

def lookupKey : Tbl → RowKey → Option Row
  | [], _ => none
  | (k', r) :: rest, k => if k' = k then some r else lookupKey rest k

/-- Python dict assignment `d[k] = r`: update in place, else append. -/
def dictSet : Tbl → RowKey → Row → Tbl
  | [], k, r => [(k, r)]
  | (k', r') :: rest, k, r => if k' = k then (k', r) :: rest else (k', r') :: dictSet rest k r

/-- `collected = defaultdict(dict)`: table name to per-table dict, in insertion
order.  A table entry only ever becomes observable together with its first row,
so the transient empty dict a `defaultdict` read creates is not modelled. -/
abbrev Collected := List (String × Tbl)

instance : DecidableEq Collected := inferInstanceAs (DecidableEq (List (String × Tbl)))

def cGetTbl (c : Collected) (t : String) : Tbl := (alookup c t).getD []

/-- `collected[t][k] = r`. -/
def cSet : Collected → String → RowKey → Row → Collected
  | [], t, k, r => [(t, [(k, r)])]
  | (t', tb) :: rest, t, k, r =>
    if t' = t then (t', dictSet tb k r) :: rest else (t', tb) :: cSet rest t k r

/-- `collected[t].get(k)`. -/
def cLookup (c : Collected) (t : String) (k : RowKey) : Option Row := lookupKey (cGetTbl c t) k

/-- `k in collected[t]`. -/
def cMem (c : Collected) (t : String) (k : RowKey) : Bool := (cLookup c t k).isSome

/-- The worklist state: the collected set and the BFS deque of
`(table, pk_cols, key)` items. -/
structure BState where
  collected : Collected
  queue : List (String × List String × RowKey)
deriving DecidableEq, Repr

/-- Exceptions that can escape the traversal loop: a failed source query, or the
`KeyError` from `collected[table][pk_key]` on a dequeued item with no entry. -/
inductive BErr where
  | fetchErr
  | keyErr
deriving DecidableEq, Repr

/-- `SELECT * FROM t WHERE col=%s LIMIT 1` + `fetchone()`. -/
def fetchOne (src : Source) (t col : String) (v : Val) : Except BErr (Option Row) :=
  if src.failq t col v then .error .fetchErr
  else .ok ((src.rowsOf t).find? (fun r => sqlEq (rowGet r col) v))

/-- `SELECT * FROM t WHERE col=%s` + `fetchall()`. -/
def fetchAll (src : Source) (t col : String) (v : Val) : Except BErr (List Row) :=
  if src.failq t col v then .error .fetchErr
  else .ok ((src.rowsOf t).filter (fun r => sqlEq (rowGet r col) v))

/-- `collected[t][k] = r; q.append((t, pk, k))`. -/
def insertEnqueue (t : String) (pk : List String) (k : RowKey) (r : Row) (st : BState) : BState :=
  { collected := cSet st.collected t k r, queue := st.queue ++ [(t, pk, k)] }

/-- The parent loop of the BFS body: for each outgoing edge, skip NULL FK
values, fetch the single referenced row, and insert-and-enqueue it when its Row
Key is new. -/
def followParents (src : Source) (row : Row) : List RefTriple → BState → Except BErr BState
  | [], st => .ok st
  | (ptbl, fkcol, pcol) :: es, st =>
    match rowGet row fkcol with
    | none => followParents src row es st
    | some v =>
      match fetchOne src ptbl pcol (some v) with
      | .error e => .error e
      | .ok none => followParents src row es st
      | .ok (some p) =>
        if cMem st.collected ptbl (rowKey (src.pkOf ptbl) p) then followParents src row es st
        else followParents src row es
          (insertEnqueue ptbl (src.pkOf ptbl) (rowKey (src.pkOf ptbl) p) p st)

/-- The inner loop over one child-fetch result. -/
def addChildren (src : Source) (ctbl : String) : List Row → BState → BState
  | [], st => st
  | c :: cs, st =>
    if cMem st.collected ctbl (rowKey (src.pkOf ctbl) c) then addChildren src ctbl cs st
    else addChildren src ctbl cs
      (insertEnqueue ctbl (src.pkOf ctbl) (rowKey (src.pkOf ctbl) c) c st)

/-- The child loop of the BFS body: for each incoming edge, skip NULL local
values, fetch all referencing rows and insert-and-enqueue the new ones. -/
def followChildren (src : Source) (row : Row) : List RefTriple → BState → Except BErr BState
  | [], st => .ok st
  | (ctbl, cfk, cref) :: es, st =>
    match rowGet row cref with
    | none => followChildren src row es st
    | some v =>
      match fetchAll src ctbl cfk (some v) with
      | .error e => .error e
      | .ok children => followChildren src row es (addChildren src ctbl children st)

/-- One iteration of `while q:` after the dequeue: look the row up in the
collected set and run the parent and child expansions. -/
def processItem (src : Source) (t : String) (k : RowKey) (st : BState) : Except BErr BState :=
  match cLookup st.collected t k with
  | none => .error .keyErr
  | some row =>
    match followParents src row (refGet src.refsMap t) st with
    | .error e => .error e
    | .ok st1 => followChildren src row (refGet src.refsByMap t) st1

/-- The BFS worklist loop, fueled.  The termination theorem shows the fuel
needed is bounded by a measure of the source, so the fuel is an artifact. -/
def bfsRun (src : Source) : Nat → BState → Except BErr BState
  | 0, st => .ok st
  | n + 1, st =>
    match st.queue with
    | [] => .ok st
    | (t, _, k) :: rest =>
      match processItem src t k { st with queue := rest } with
      | .error e => .error e
      | .ok st' => bfsRun src n st'

/-- The seeding loop: insert every seed row under its root-PK key and enqueue
it. -/
def seedState (src : Source) (root : String) (seeds : List Row) : BState :=
  seeds.foldl
    (fun st row =>
      { collected := cSet st.collected root (rowKey (src.pkOf root) row) row,
        queue := st.queue ++ [(root, src.pkOf root, rowKey (src.pkOf root) row)] })
    ⟨[], []⟩

/-- Target-side effects, as an event trace. -/
inductive Ev where
  | setFK (enabled : Bool)
  | trunc (t : String) (ok : Bool)
  | commit
  | ins (t : String) (r : Row) (ok : Bool)
deriving DecidableEq, Repr

/-- `clear_target_database`: disable FK checks, truncate every target table
(failures caught and logged), re-enable FK checks. -/
def clear_target_database (tgtTables : List String) (truncOk : String → Bool) : List Ev :=
  Ev.setFK false :: (tgtTables.map (fun t => Ev.trunc t (truncOk t)) ++ [Ev.setFK true])

/-- The per-row insert loop of one table: each `insert_row` is attempted inside
`try/except`, so a failure becomes a logged event rather than an exception. -/
def attemptRows (insOk : String → Row → Bool) (t : String) : List Row → List Ev
  | [] => []
  | r :: rs => Ev.ins t r (insOk t r) :: attemptRows insOk t rs

/-- The materialization loop: per table, attempt every collected row of that
table and then `tgt.commit()`. -/
def materialize (insOk : String → Row → Bool) (coll : Collected) : List String → List Ev
  | [] => []
  | t :: ts =>
    attemptRows insOk t ((cGetTbl coll t).map (fun p => p.2)) ++ (Ev.commit :: materialize insOk coll ts)

/-- `len(references.get(t, []))`. -/
def refCount (m : RefMap) (t : String) : Nat := (refGet m t).length

/-- The sort key order used by `ordered_tables.sort(key=...)`. -/
def tblLe (m : RefMap) (a b : String) : Prop := refCount m a ≤ refCount m b

instance (m : RefMap) : DecidableRel (tblLe m) := fun _ _ => Nat.decLe _ _

/-- `ordered_tables = list(collected.keys()); ordered_tables.sort(key=...)`:
`list.sort` is a stable sort by the key, modelled by stable insertion sort. -/
def ordered_tables (m : RefMap) (coll : Collected) : List String :=
  List.insertionSort (tblLe m) (coll.map (fun p => p.1))

/-- The seed query: `WHERE city IN (...)` for a list filter, `WHERE city=%s`
otherwise. -/
def seedQuery (src : Source) (root : String) (cf : Sum Val (List Val)) : List Row :=
  match cf with
  | .inr cities => (src.rowsOf root).filter (fun r => cities.any (fun v => sqlEq (rowGet r "city") v))
  | .inl v => (src.rowsOf root).filter (fun r => sqlEq (rowGet r "city") v)

/-- `main` from the target's point of view: clear and commit, run the seed
query, stop if it is empty, else run the BFS (whose exceptions propagate and
skip materialization entirely) and materialize in sorted table order.  Returns
the target event trace and the escaped exception, if any. -/
def mainRun (src : Source) (root : String) (cf : Sum Val (List Val)) (tgtTables : List String)
    (truncOk : String → Bool) (insOk : String → Row → Bool) (fuel : Nat) :
    List Ev × Option BErr :=
  if (seedQuery src root cf).isEmpty then
    (clear_target_database tgtTables truncOk ++ [Ev.commit], none)
  else
    match bfsRun src fuel (seedState src root (seedQuery src root cf)) with
    | .error e => (clear_target_database tgtTables truncOk ++ [Ev.commit], some e)
    | .ok st =>
      (clear_target_database tgtTables truncOk ++ [Ev.commit]
        ++ materialize insOk st.collected (ordered_tables src.refsMap st.collected), none)

/-- The insert events of table `t` in a trace. -/
def insOf (t : String) : List Ev → List Ev
  | [] => []
  | Ev.ins t' r ok :: rest =>
    if t' = t then Ev.ins t' r ok :: insOf t rest else insOf t rest
  | _ :: rest => insOf t rest

/-- The successfully inserted rows of table `t` in a trace. -/
def okInsRows (t : String) : List Ev → List Row
  | [] => []
  | Ev.ins t' r ok :: rest =>
    if t' = t ∧ ok = true then r :: okInsRows t rest else okInsRows t rest
  | _ :: rest => okInsRows t rest

/-! ### Predicates for the traversal invariants -/

/-- `(t, k)` still sits in the work queue (under some pk-column list). -/
def Pending (st : BState) (t : String) (k : RowKey) : Prop :=
  ∃ pks, (t, pks, k) ∈ st.queue

/-- Every queued item has its row in the collected set (rules out the
`KeyError` of `collected[table][pk_key]`). -/
def QueueOK (st : BState) : Prop :=
  ∀ itm ∈ st.queue, cMem st.collected itm.1 itm.2.2 = true

/-- Per table, each Row Key is bound at most once. -/
def NodupKeys (c : Collected) : Prop :=
  ∀ t, ((cGetTbl c t).map Prod.fst).Nodup

/-- For a table whose PK lookup is empty: every key collapses to the empty
tuple and the table holds at most one row. -/
def EmptyPkInv (u : String) (c : Collected) : Prop :=
  (∀ e ∈ cGetTbl c u, e.1 = ([] : RowKey)) ∧ (cGetTbl c u).length ≤ 1

/-- Every collected row is a source row of its table, filed under its Row Key. -/
def SrcConsistent (src : Source) (c : Collected) : Prop :=
  ∀ t k r, cLookup c t k = some r → r ∈ src.rowsOf t ∧ rowKey (src.pkOf t) r = k

/-- The closure-completeness property of one outgoing FK edge of one row:
either a row carrying the referenced value is collected, or the source has no
such row. -/
def EdgeOK (src : Source) (c : Collected) (row : Row) (ptbl fkcol pcol : String) : Prop :=
  ∀ v, rowGet row fkcol = some v →
    (∃ k r', cLookup c ptbl k = some r' ∧ rowGet r' pcol = some v) ∨
    ∀ p ∈ src.rowsOf ptbl, sqlEq (rowGet p pcol) (some v) = false

/-- All outgoing FK edges of `row`'s table are satisfied in `c`. -/
def ParentOK (src : Source) (c : Collected) (t : String) (row : Row) : Prop :=
  ∀ e ∈ refGet src.refsMap t, EdgeOK src c row e.1 e.2.1 e.2.2

/-- The loop invariant of the BFS: collected rows are consistent source rows,
and each is either still pending or fully parent-expanded. -/
def BInv (src : Source) (st : BState) : Prop :=
  SrcConsistent src st.collected ∧
  ∀ t k r, cLookup st.collected t k = some r → Pending st t k ∨ ParentOK src st.collected t r

/-- Within each source table, Row Keys identify rows uniquely (the defining
property of a primary key). -/
def UniqueKeys (src : Source) : Prop :=
  ∀ t, ((src.rowsOf t).map (rowKey (src.pkOf t))).Nodup

/-- All `(table, Row Key)` pairs of the finite source row universe. -/
def allPairs (src : Source) : List (String × RowKey) :=
  (src.tables.flatMap (fun p => p.2.map (fun r => (p.1, rowKey (src.pkOf p.1) r)))).dedup

/-- How many source pairs are not collected yet. -/
def missing (src : Source) (c : Collected) : Nat :=
  ((allPairs src).filter (fun p => !cMem c p.1 p.2)).length

/-- The termination measure of the worklist loop: each iteration removes one
queue item and each insert trades one missing pair for one queue item. -/
def bmeasure (src : Source) (st : BState) : Nat :=
  st.queue.length + 2 * missing src st.collected

/-- What one traversal step (and hence any error-free run of the loop body)
does to the state: entries persist, the queue only grows, every new entry is a
freshly keyed source row that is still pending, the per-table dict and
empty-pk shapes are preserved, and the measure does not increase. -/
structure Extends (src : Source) (st st' : BState) : Prop where
  mono : ∀ t k r, cLookup st.collected t k = some r → cLookup st'.collected t k = some r
  qmono : ∀ itm, itm ∈ st.queue → itm ∈ st'.queue
  fresh : ∀ t k r, cLookup st'.collected t k = some r →
      cLookup st.collected t k = some r ∨
      (r ∈ src.rowsOf t ∧ rowKey (src.pkOf t) r = k ∧ Pending st' t k)
  memNew : ∀ u e, e ∈ cGetTbl st'.collected u → e ∈ cGetTbl st.collected u ∨ e.2 ∈ src.rowsOf u
  nodup : NodupKeys st.collected → NodupKeys st'.collected
  qok : QueueOK st → QueueOK st'
  meas : bmeasure src st' ≤ bmeasure src st
  emptyTbl : ∀ u, src.pkOf u = [] → EmptyPkInv u st.collected → EmptyPkInv u st'.collected

/-! ### Concrete example databases used to exercise the definitions -/

/-- Customers/orders world: one FK `o.cid → c.id`, two customers in cities
`S` and `T`, one order each. -/
def exSrc : Source :=
  { tables := [("c", [[("id", some (Lit.n 1)), ("city", some (Lit.s "S"))],
                      [("id", some (Lit.n 2)), ("city", some (Lit.s "T"))]]),
               ("o", [[("id", some (Lit.n 10)), ("cid", some (Lit.n 1))],
                      [("id", some (Lit.n 11)), ("cid", some (Lit.n 2))]])],
    kcu := [⟨"c", "PRIMARY", "id", 1⟩, ⟨"o", "PRIMARY", "id", 1⟩],
    fk := [⟨"o", "cid", "c", "id"⟩],
    failq := fun _ _ _ => false }

def exSeeds : List Row := seedQuery exSrc "c" (Sum.inl (some (Lit.s "S")))

/-- The final state of the example run. -/
def exFinal : BState :=
  match bfsRun exSrc 8 (seedState exSrc "c" exSeeds) with
  | .ok st => st
  | .error _ => ⟨[], []⟩

/-- Self-referencing employees table with a two-cycle of managers:
`e.mid → e.id`, `1 ↦ 2 ↦ 1`. -/
def exCyc : Source :=
  { tables := [("e", [[("id", some (Lit.n 1)), ("mid", some (Lit.n 2))],
                      [("id", some (Lit.n 2)), ("mid", some (Lit.n 1))]])],
    kcu := [⟨"e", "PRIMARY", "id", 1⟩],
    fk := [⟨"e", "mid", "e", "id"⟩],
    failq := fun _ _ _ => false }

def exCycSt : BState := seedState exCyc "e" [[("id", some (Lit.n 1)), ("mid", some (Lit.n 2))]]

/-- The customers/orders world with a dangling order (`cid = 9` has no
customer) and no order-id 11 row, rooted at the orders table. -/
def exDangling : Source :=
  { tables := [("c", [[("id", some (Lit.n 1)), ("city", some (Lit.s "S"))]]),
               ("o", [[("id", some (Lit.n 10)), ("cid", some (Lit.n 9))]])],
    kcu := [⟨"c", "PRIMARY", "id", 1⟩, ⟨"o", "PRIMARY", "id", 1⟩],
    fk := [⟨"o", "cid", "c", "id"⟩],
    failq := fun _ _ _ => false }

def exDanglingRow : Row := [("id", some (Lit.n 10)), ("cid", some (Lit.n 9))]

def exDanglingSt : BState :=
  { collected := [("o", [([some (Lit.n 10)], exDanglingRow)])],
    queue := [("o", ["id"], [some (Lit.n 10)])] }

/-- The customers/orders world where every query against the orders table
fails (a connectivity error during traversal). -/
def exFail : Source :=
  { tables := exSrc.tables, kcu := exSrc.kcu, fk := exSrc.fk,
    failq := fun t _ _ => decide (t = "o") }

/-- A child table `n` with no PRIMARY constraint in the catalog: its PK lookup
is empty, so all of its rows share the empty Row Key. -/
def exNoPk : Source :=
  { tables := [("c", [[("id", some (Lit.n 1)), ("city", some (Lit.s "S"))]]),
               ("n", [[("id", some (Lit.n 21)), ("cid", some (Lit.n 1))],
                      [("id", some (Lit.n 22)), ("cid", some (Lit.n 1))]])],
    kcu := [⟨"c", "PRIMARY", "id", 1⟩],
    fk := [⟨"n", "cid", "c", "id"⟩],
    failq := fun _ _ _ => false }

def exNoPkSt : BState := seedState exNoPk "c" (seedQuery exNoPk "c" (Sum.inl (some (Lit.s "S"))))

/-- The final state of the no-PK example run. -/
def exNoPkFinal : BState :=
  match bfsRun exNoPk 8 exNoPkSt with
  | .ok st => st
  | .error _ => ⟨[], []⟩


/-- A small closure and insert capability for exercising the materializer: the
order row with id 10 fails to insert, its sibling succeeds. -/
def exColl : Collected :=
  [("c", [([some (Lit.n 1)], [("id", some (Lit.n 1))])]),
   ("o", [([some (Lit.n 10)], [("id", some (Lit.n 10))]),
          ([some (Lit.n 11)], [("id", some (Lit.n 11))])])]

def exInsOk : String → Row → Bool := fun _ r => !(sqlEq (rowGet r "id") (some (Lit.n 10)))

/-! ### Basic lemmas about the dict operations -/

theorem lookupKey_mem {tb : Tbl} {k : RowKey} {r : Row} (h : lookupKey tb k = some r) :
    (k, r) ∈ tb := by
  induction tb with
  | nil => simp [lookupKey] at h
  | cons e rest ih =>
    obtain ⟨k', r'⟩ := e
    by_cases hk : k' = k
    · subst hk
      simp [lookupKey] at h
      simp [h]
    · simp only [lookupKey, if_neg hk] at h
      exact List.mem_cons_of_mem _ (ih h)

theorem lookupKey_eq_none_iff {tb : Tbl} {k : RowKey} :
    lookupKey tb k = none ↔ k ∉ tb.map Prod.fst := by
  induction tb with
  | nil => simp [lookupKey]
  | cons e rest ih =>
    obtain ⟨k', r'⟩ := e
    by_cases hk : k' = k
    · subst hk; simp [lookupKey]
    · simp only [lookupKey, if_neg hk, List.map_cons, List.mem_cons, ih]
      constructor
      · rintro h (h1 | h2)
        · exact hk h1.symm
        · exact h h2
      · intro h h2
        exact h (Or.inr h2)

theorem lookupKey_dictSet (tb : Tbl) (k : RowKey) (r : Row) (k' : RowKey) :
    lookupKey (dictSet tb k r) k' = if k' = k then some r else lookupKey tb k' := by
  induction tb with
  | nil =>
    simp only [dictSet, lookupKey]
    by_cases h : k = k'
    · subst h; simp
    · rw [if_neg h, if_neg (Ne.symm h)]
  | cons e rest ih =>
    obtain ⟨k0, r0⟩ := e
    by_cases h0 : k0 = k
    · subst h0
      simp only [dictSet, if_pos rfl, lookupKey]
      by_cases h : k0 = k'
      · subst h; simp
      · rw [if_neg h, if_neg (Ne.symm h), if_neg h]
    · simp only [dictSet, if_neg h0, lookupKey, ih]
      by_cases h : k0 = k'
      · subst h
        simp [h0]
      · simp [h]

theorem mem_dictSet {tb : Tbl} {k : RowKey} {r : Row} {e : RowKey × Row}
    (h : e ∈ dictSet tb k r) : e ∈ tb ∨ e.2 = r := by
  induction tb with
  | nil =>
    simp only [dictSet, List.mem_singleton] at h
    right; rw [h]
  | cons e0 rest ih =>
    obtain ⟨k0, r0⟩ := e0
    by_cases h0 : k0 = k
    · subst h0
      simp only [dictSet, if_pos rfl] at h
      rcases List.mem_cons.mp h with h1 | h1
      · right; rw [h1]
      · left; exact List.mem_cons_of_mem _ h1
    · simp only [dictSet, if_neg h0] at h
      rcases List.mem_cons.mp h with h1 | h1
      · left; simp [h1]
      · rcases ih h1 with h2 | h2
        · left; exact List.mem_cons_of_mem _ h2
        · right; exact h2

theorem map_fst_dictSet_of_none {tb : Tbl} {k : RowKey} (r : Row)
    (h : lookupKey tb k = none) :
    (dictSet tb k r).map Prod.fst = tb.map Prod.fst ++ [k] := by
  induction tb with
  | nil => simp [dictSet]
  | cons e rest ih =>
    obtain ⟨k0, r0⟩ := e
    by_cases h0 : k0 = k
    · subst h0; simp [lookupKey] at h
    · simp only [lookupKey, if_neg h0] at h
      simp [dictSet, h0, ih h]

theorem cGetTbl_cSet (c : Collected) (t : String) (k : RowKey) (r : Row) (u : String) :
    cGetTbl (cSet c t k r) u = if u = t then dictSet (cGetTbl c t) k r else cGetTbl c u := by
  induction c with
  | nil =>
    by_cases h : t = u
    · subst h; simp [cSet, cGetTbl, alookup, dictSet]
    · simp [cSet, cGetTbl, alookup, h, Ne.symm h]
  | cons e rest ih =>
    obtain ⟨t0, tb0⟩ := e
    by_cases h0 : t0 = t
    · subst h0
      by_cases h : t0 = u
      · subst h; simp [cSet, cGetTbl, alookup]
      · simp [cSet, cGetTbl, alookup, h, Ne.symm h]
    · by_cases h : t0 = u
      · subst h
        simp [cSet, cGetTbl, alookup, h0, Ne.symm h0]
      · simp only [cSet, if_neg h0, cGetTbl, alookup, if_neg h, if_neg h0]
        exact (by simpa [cGetTbl] using ih)

theorem cLookup_cSet (c : Collected) (t : String) (k : RowKey) (r : Row) (u : String) (k' : RowKey) :
    cLookup (cSet c t k r) u k' = if u = t ∧ k' = k then some r else cLookup c u k' := by
  unfold cLookup
  rw [cGetTbl_cSet]
  by_cases h : u = t
  · subst h
    rw [if_pos rfl, lookupKey_dictSet]
    by_cases hk : k' = k
    · simp [hk]
    · simp [hk]
  · simp [h]

theorem alookup_mem {β : Type} {l : List (String × β)} {key : String} {v : β}
    (h : alookup l key = some v) : (key, v) ∈ l := by
  induction l with
  | nil => simp [alookup] at h
  | cons e rest ih =>
    obtain ⟨k0, v0⟩ := e
    by_cases h0 : k0 = key
    · subst h0
      simp [alookup] at h
      simp [h]
    · simp only [alookup, if_neg h0] at h
      exact List.mem_cons_of_mem _ (ih h)

theorem cMem_eq_false_iff {c : Collected} {t : String} {k : RowKey} :
    cMem c t k = false ↔ cLookup c t k = none := by
  unfold cMem
  cases cLookup c t k <;> simp

theorem cMem_eq_true_iff {c : Collected} {t : String} {k : RowKey} :
    cMem c t k = true ↔ ∃ r, cLookup c t k = some r := by
  unfold cMem
  cases cLookup c t k <;> simp

theorem pair_mem_allPairs {src : Source} {t : String} {r : Row}
    (h : r ∈ src.rowsOf t) : (t, rowKey (src.pkOf t) r) ∈ allPairs src := by
  unfold Source.rowsOf at h
  rcases hl : alookup src.tables t with - | rs
  · rw [hl] at h; simp at h
  · rw [hl] at h
    simp only [Option.getD_some] at h
    unfold allPairs
    rw [List.mem_dedup]
    refine List.mem_flatMap.mpr ⟨(t, rs), alookup_mem hl, ?_⟩
    exact List.mem_map.mpr ⟨r, h, rfl⟩

theorem filter_len_le {α : Type} (l : List α) (p q : α → Bool)
    (h : ∀ a ∈ l, q a = true → p a = true) :
    (l.filter q).length ≤ (l.filter p).length := by
  induction l with
  | nil => simp
  | cons a rest ih =>
    have ht := ih (fun b hb => h b (List.mem_cons_of_mem _ hb))
    have ha := h a (List.mem_cons_self _ _)
    cases hq : q a with
    | true =>
      rw [List.filter_cons_of_pos hq, List.filter_cons_of_pos (ha hq)]
      simpa using ht
    | false =>
      rw [List.filter_cons_of_neg (by simp [hq])]
      cases hp : p a with
      | true =>
        rw [List.filter_cons_of_pos hp]
        exact le_trans ht (by simp)
      | false =>
        rw [List.filter_cons_of_neg (by simp [hp])]
        exact ht

theorem filter_len_lt {α : Type} (l : List α) (p q : α → Bool)
    (h : ∀ a ∈ l, q a = true → p a = true)
    (a : α) (ha : a ∈ l) (hpa : p a = true) (hqa : q a = false) :
    (l.filter q).length < (l.filter p).length := by
  induction l with
  | nil => simp at ha
  | cons b rest ih =>
    have hrest : ∀ x ∈ rest, q x = true → p x = true :=
      fun x hx => h x (List.mem_cons_of_mem _ hx)
    have hle := filter_len_le rest p q hrest
    rcases List.mem_cons.mp ha with h1 | h1
    · subst h1
      rw [List.filter_cons_of_neg (by simp [hqa]), List.filter_cons_of_pos hpa]
      simpa using Nat.lt_succ_of_le hle
    · have hlt := ih hrest h1
      have hb := h b (List.mem_cons_self _ _)
      cases hq : q b with
      | true =>
        rw [List.filter_cons_of_pos hq, List.filter_cons_of_pos (hb hq)]
        simpa using hlt
      | false =>
        rw [List.filter_cons_of_neg (by simp [hq])]
        cases hp : p b with
        | true =>
          rw [List.filter_cons_of_pos hp]
          exact lt_of_lt_of_le hlt (by simp)
        | false =>
          rw [List.filter_cons_of_neg (by simp [hp])]
          exact hlt

theorem missing_le {src : Source} {c c' : Collected}
    (h : ∀ t k, cMem c t k = true → cMem c' t k = true) :
    missing src c' ≤ missing src c := by
  unfold missing
  refine filter_len_le _ _ _ ?_
  intro a _ hq
  simp only [Bool.not_eq_true'] at hq ⊢
  cases hc : cMem c a.1 a.2 with
  | false => rfl
  | true => rw [h a.1 a.2 hc] at hq; cases hq

theorem missing_lt {src : Source} {c c' : Collected}
    (h : ∀ t k, cMem c t k = true → cMem c' t k = true)
    (t : String) (k : RowKey) (hm : (t, k) ∈ allPairs src)
    (h1 : cMem c t k = false) (h2 : cMem c' t k = true) :
    missing src c' < missing src c := by
  unfold missing
  refine filter_len_lt _ _ _ ?_ (t, k) hm ?_ ?_
  · intro a _ hq
    simp only [Bool.not_eq_true'] at hq ⊢
    cases hc : cMem c a.1 a.2 with
    | false => rfl
    | true => rw [h a.1 a.2 hc] at hq; cases hq
  · simp [h1]
  · simp [h2]

theorem nodupKeys_cSet {c : Collected} {t : String} {k : RowKey} {r : Row}
    (hm : cMem c t k = false) (h : NodupKeys c) : NodupKeys (cSet c t k r) := by
  intro u
  rw [cGetTbl_cSet]
  by_cases hu : u = t
  · subst hu
    rw [if_pos rfl]
    have hnone : lookupKey (cGetTbl c u) k = none := cMem_eq_false_iff.mp hm
    rw [map_fst_dictSet_of_none r hnone]
    rw [List.nodup_append]
    refine ⟨h u, List.nodup_singleton _, ?_⟩
    intro x hx hk
    simp only [List.mem_singleton] at hk
    subst hk
    exact (lookupKey_eq_none_iff.mp hnone) hx
  · rw [if_neg hu]
    exact h u

theorem emptyPkInv_cSet {c : Collected} {t : String} {k : RowKey} {r : Row} {u : String}
    (hm : cMem c t k = false) (hku : t = u → k = []) (hinv : EmptyPkInv u c) :
    EmptyPkInv u (cSet c t k r) := by
  unfold EmptyPkInv at hinv ⊢
  rw [cGetTbl_cSet]
  by_cases hu : u = t
  · subst hu
    rw [if_pos rfl]
    have hk : k = [] := hku rfl
    subst hk
    have hnone : lookupKey (cGetTbl c u) [] = none := cMem_eq_false_iff.mp hm
    have htb : cGetTbl c u = [] := by
      rcases htb : cGetTbl c u with - | ⟨⟨k0, r0⟩, rest⟩
      · rfl
      · have hk0 : k0 = [] := hinv.1 (k0, r0) (by rw [htb]; exact List.mem_cons_self _ _)
        rw [htb, hk0] at hnone
        simp [lookupKey] at hnone
    rw [htb]
    simp [dictSet]
  · rw [if_neg hu]
    exact hinv

/-! ### The step-extension relation -/

theorem Extends.rfl (src : Source) (st : BState) : Extends src st st :=
  ⟨fun _ _ _ h => h, fun _ h => h, fun _ _ _ h => Or.inl h, fun _ _ h => Or.inl h,
   fun h => h, fun h => h, le_refl _, fun _ _ h => h⟩

theorem Extends.trans {src : Source} {s1 s2 s3 : BState}
    (a : Extends src s1 s2) (b : Extends src s2 s3) : Extends src s1 s3 := by
  refine ⟨?_, ?_, ?_, ?_, ?_, ?_, ?_, ?_⟩
  · exact fun t k r h => b.mono t k r (a.mono t k r h)
  · exact fun itm h => b.qmono itm (a.qmono itm h)
  · intro t k r h
    rcases b.fresh t k r h with h1 | ⟨h1, h2, h3⟩
    · rcases a.fresh t k r h1 with h2 | ⟨h2, h3, h4⟩
      · exact Or.inl h2
      · refine Or.inr ⟨h2, h3, ?_⟩
        obtain ⟨pks, hp⟩ := h4
        exact ⟨pks, b.qmono _ hp⟩
    · exact Or.inr ⟨h1, h2, h3⟩
  · intro u e h
    rcases b.memNew u e h with h1 | h1
    · exact a.memNew u e h1
    · exact Or.inr h1
  · exact fun h => b.nodup (a.nodup h)
  · exact fun h => b.qok (a.qok h)
  · exact le_trans b.meas a.meas
  · exact fun u hu h => b.emptyTbl u hu (a.emptyTbl u hu h)

theorem cMem_cSet_mono {c : Collected} {t : String} {k : RowKey} {r : Row} :
    ∀ u k', cMem c u k' = true → cMem (cSet c t k r) u k' = true := by
  intro u k' h
  rw [cMem_eq_true_iff] at h ⊢
  obtain ⟨r', hr'⟩ := h
  rw [cLookup_cSet]
  by_cases hc : u = t ∧ k' = k
  · exact ⟨r, by rw [if_pos hc]⟩
  · exact ⟨r', by rw [if_neg hc]; exact hr'⟩

theorem insertEnqueue_extends (src : Source) (t : String) (pk : List String) (k : RowKey)
    (r : Row) (st : BState)
    (hr : r ∈ src.rowsOf t) (hk : rowKey (src.pkOf t) r = k)
    (hm : cMem st.collected t k = false) :
    Extends src st (insertEnqueue t pk k r st) := by
  have hnone : cLookup st.collected t k = none := cMem_eq_false_iff.mp hm
  refine ⟨?_, ?_, ?_, ?_, ?_, ?_, ?_, ?_⟩
  · intro t' k' r' h
    show cLookup (cSet st.collected t k r) t' k' = some r'
    rw [cLookup_cSet]
    by_cases hc : t' = t ∧ k' = k
    · rw [hc.1, hc.2] at h
      rw [h] at hnone
      cases hnone
    · rw [if_neg hc]; exact h
  · intro itm h
    exact List.mem_append_left _ h
  · intro t' k' r' h
    rw [show (insertEnqueue t pk k r st).collected = cSet st.collected t k r from rfl,
        cLookup_cSet] at h
    by_cases hc : t' = t ∧ k' = k
    · rw [if_pos hc] at h
      obtain ⟨h1, h2⟩ := hc
      subst h1; subst h2
      injection h with h
      subst h
      exact Or.inr ⟨hr, hk, ⟨pk, List.mem_append_right _ (List.mem_singleton.mpr rfl)⟩⟩
    · rw [if_neg hc] at h
      exact Or.inl h
  · intro u e h
    rw [show (insertEnqueue t pk k r st).collected = cSet st.collected t k r from rfl,
        cGetTbl_cSet] at h
    by_cases hu : u = t
    · subst hu
      rw [if_pos rfl] at h
      rcases mem_dictSet h with h1 | h1
      · exact Or.inl h1
      · exact Or.inr (by rw [h1]; exact hr)
    · rw [if_neg hu] at h
      exact Or.inl h
  · exact nodupKeys_cSet hm
  · intro hq itm h
    rcases List.mem_append.mp h with h1 | h1
    · exact cMem_cSet_mono itm.1 itm.2.2 (hq itm h1)
    · rw [List.mem_singleton] at h1
      subst h1
      rw [cMem_eq_true_iff]
      refine ⟨r, ?_⟩
      show cLookup (cSet st.collected t k r) t k = some r
      rw [cLookup_cSet, if_pos ⟨rfl, rfl⟩]
  · show bmeasure src (insertEnqueue t pk k r st) ≤ bmeasure src st
    unfold bmeasure insertEnqueue
    simp only [List.length_append, List.length_singleton]
    have hlt : missing src (cSet st.collected t k r) < missing src st.collected := by
      refine missing_lt cMem_cSet_mono t k ?_ hm ?_
      · exact hk ▸ pair_mem_allPairs hr
      · rw [cMem_eq_true_iff]
        exact ⟨r, by rw [cLookup_cSet, if_pos ⟨rfl, rfl⟩]⟩
    omega
  · intro u hu hinv
    exact emptyPkInv_cSet hm (fun htu => by rw [← hk, htu, hu]; rfl) hinv

theorem followParents_extends (src : Source) (row : Row) :
    ∀ (es : List RefTriple) (st st' : BState),
      followParents src row es st = Except.ok st' → Extends src st st' := by
  intro es
  induction es with
  | nil =>
    intro st st' h
    simp only [followParents] at h
    injection h with h
    subst h
    exact Extends.rfl src st
  | cons e rest ih =>
    obtain ⟨ptbl, fkcol, pcol⟩ := e
    intro st st' h
    simp only [followParents] at h
    split at h
    · exact ih st st' h
    · rename_i v hv
      split at h
      · simp at h
      · exact ih st st' h
      · rename_i p hf
        split at h
        · exact ih st st' h
        · rename_i hmem
          have hfind :
              (src.rowsOf ptbl).find? (fun r0 => sqlEq (rowGet r0 pcol) (some v)) = some p := by
            unfold fetchOne at hf
            by_cases hfq : src.failq ptbl pcol (some v) = true
            · rw [if_pos hfq] at hf; cases hf
            · rw [if_neg hfq] at hf; injection hf
          have hr : p ∈ src.rowsOf ptbl := List.mem_of_find?_eq_some hfind
          have hmem' : cMem st.collected ptbl (rowKey (src.pkOf ptbl) p) = false := by
            revert hmem
            cases cMem st.collected ptbl (rowKey (src.pkOf ptbl) p) <;> simp
          exact Extends.trans
            (insertEnqueue_extends src ptbl (src.pkOf ptbl) _ p st hr rfl hmem')
            (ih _ _ h)

theorem addChildren_extends (src : Source) (ctbl : String) :
    ∀ (cs : List Row) (st : BState), (∀ c0 ∈ cs, c0 ∈ src.rowsOf ctbl) →
      Extends src st (addChildren src ctbl cs st) := by
  intro cs
  induction cs with
  | nil =>
    intro st _
    simp only [addChildren]
    exact Extends.rfl src st
  | cons c0 rest ih =>
    intro st hmemall
    simp only [addChildren]
    cases hmem : cMem st.collected ctbl (rowKey (src.pkOf ctbl) c0) with
    | true =>
      rw [if_pos rfl]
      exact ih st (fun x hx => hmemall x (List.mem_cons_of_mem _ hx))
    | false =>
      rw [if_neg Bool.false_ne_true]
      exact Extends.trans
        (insertEnqueue_extends src ctbl (src.pkOf ctbl) _ c0 st
          (hmemall c0 (List.mem_cons_self _ _)) rfl hmem)
        (ih _ (fun x hx => hmemall x (List.mem_cons_of_mem _ hx)))

theorem followChildren_extends (src : Source) (row : Row) :
    ∀ (es : List RefTriple) (st st' : BState),
      followChildren src row es st = Except.ok st' → Extends src st st' := by
  intro es
  induction es with
  | nil =>
    intro st st' h
    simp only [followChildren] at h
    injection h with h
    subst h
    exact Extends.rfl src st
  | cons e rest ih =>
    obtain ⟨ctbl, cfk, cref⟩ := e
    intro st st' h
    simp only [followChildren] at h
    split at h
    · exact ih st st' h
    · rename_i v hv
      split at h
      · simp at h
      · rename_i children hf
        have hsub : ∀ c0 ∈ children, c0 ∈ src.rowsOf ctbl := by
          unfold fetchAll at hf
          by_cases hfq : src.failq ctbl cfk (some v) = true
          · rw [if_pos hfq] at hf; cases hf
          · rw [if_neg hfq] at hf
            injection hf with hf
            intro c0 hc0
            rw [← hf] at hc0
            exact List.mem_of_mem_filter hc0
        exact Extends.trans (addChildren_extends src ctbl children st hsub) (ih _ _ h)

theorem processItem_extends (src : Source) (t : String) (k : RowKey) (st st' : BState)
    (h : processItem src t k st = Except.ok st') :
    ∃ row, cLookup st.collected t k = some row ∧ Extends src st st' := by
  unfold processItem at h
  split at h
  · simp at h
  · rename_i row hrow
    split at h
    · simp at h
    · rename_i st1 hp
      exact ⟨row, hrow, Extends.trans (followParents_extends src row _ st st1 hp)
        (followChildren_extends src row _ st1 st' h)⟩

/-! ### Run-level preservation -/

theorem bfsRun_pres (src : Source) :
    ∀ (fuel : Nat) (st st' : BState), bfsRun src fuel st = Except.ok st' →
      (∀ t k r, cLookup st.collected t k = some r → cLookup st'.collected t k = some r) ∧
      (NodupKeys st.collected → NodupKeys st'.collected) ∧
      (∀ u, src.pkOf u = [] → EmptyPkInv u st.collected → EmptyPkInv u st'.collected) ∧
      (∀ u e, e ∈ cGetTbl st'.collected u → e ∈ cGetTbl st.collected u ∨ e.2 ∈ src.rowsOf u) := by
  intro fuel
  induction fuel with
  | zero =>
    intro st st' h
    simp only [bfsRun] at h
    injection h with h
    subst h
    exact ⟨fun _ _ _ h => h, fun h => h, fun _ _ h => h, fun _ _ h => Or.inl h⟩
  | succ n ih =>
    intro st st' h
    simp only [bfsRun] at h
    split at h
    · injection h with h
      subst h
      exact ⟨fun _ _ _ h => h, fun h => h, fun _ _ h => h, fun _ _ h => Or.inl h⟩
    · rename_i t pks k rest hq
      split at h
      · simp at h
      · rename_i st1 hp1
        obtain ⟨row, hrow, hext⟩ := processItem_extends src t k _ st1 hp1
        obtain ⟨m1, n1, e1, mm1⟩ := ih st1 st' h
        refine ⟨?_, ?_, ?_, ?_⟩
        · exact fun t' k' r' hh => m1 t' k' r' (hext.mono t' k' r' hh)
        · exact fun hh => n1 (hext.nodup hh)
        · exact fun u hu hh => e1 u hu (hext.emptyTbl u hu hh)
        · intro u e he
          rcases mm1 u e he with h1 | h1
          · exact hext.memNew u e h1
          · exact Or.inr h1

/-! ### Completeness machinery -/

theorem edgeOK_mono {src : Source} {c c' : Collected} {row : Row} {ptbl fkcol pcol : String}
    (hm : ∀ t k r, cLookup c t k = some r → cLookup c' t k = some r)
    (h : EdgeOK src c row ptbl fkcol pcol) : EdgeOK src c' row ptbl fkcol pcol := by
  intro v hv
  rcases h v hv with ⟨k, r', h1, h2⟩ | h1
  · exact Or.inl ⟨k, r', hm _ _ _ h1, h2⟩
  · exact Or.inr h1

theorem srcConsistent_extends {src : Source} {st st' : BState}
    (h : SrcConsistent src st.collected) (he : Extends src st st') :
    SrcConsistent src st'.collected := by
  intro t k r hr
  rcases he.fresh t k r hr with h1 | ⟨h1, h2, _⟩
  · exact h t k r h1
  · exact ⟨h1, h2⟩

theorem sqlEq_some_eq {x : Val} {v : Lit} (h : sqlEq x (some v) = true) : x = some v := by
  cases x with
  | none => simp [sqlEq] at h
  | some a =>
    simp only [sqlEq, decide_eq_true_eq] at h
    rw [h]

theorem sqlEq_of_eq_some {x : Val} {v : Lit} (h : x = some v) : sqlEq x (some v) = true := by
  subst h
  simp [sqlEq]

theorem uniqueKeys_eq {src : Source} (hu : UniqueKeys src) {t : String} {a b : Row}
    (ha : a ∈ src.rowsOf t) (hb : b ∈ src.rowsOf t)
    (hk : rowKey (src.pkOf t) a = rowKey (src.pkOf t) b) : a = b :=
  List.inj_on_of_nodup_map (hu t) ha hb hk

theorem followParents_edges (src : Source) (row : Row) (hu : UniqueKeys src) :
    ∀ (es : List RefTriple) (st st' : BState),
      SrcConsistent src st.collected →
      followParents src row es st = Except.ok st' →
      ∀ e ∈ es, EdgeOK src st'.collected row e.1 e.2.1 e.2.2 := by
  intro es
  induction es with
  | nil =>
    intro st st' _ _ e he
    simp at he
  | cons e0 rest ih =>
    obtain ⟨ptbl, fkcol, pcol⟩ := e0
    intro st st' hsc h e he
    simp only [followParents] at h
    split at h
    · rename_i hv
      rcases List.mem_cons.mp he with h1 | h1
      · subst h1
        show EdgeOK src st'.collected row ptbl fkcol pcol
        intro v2 hv2
        rw [hv] at hv2
        cases hv2
      · exact ih st st' hsc h e h1
    · rename_i v hv
      split at h
      · simp at h
      · rename_i hf
        rcases List.mem_cons.mp he with h1 | h1
        · subst h1
          show EdgeOK src st'.collected row ptbl fkcol pcol
          intro v2 hv2
          rw [hv] at hv2
          injection hv2 with hv2
          subst hv2
          refine Or.inr ?_
          have hfind :
              (src.rowsOf ptbl).find? (fun r0 => sqlEq (rowGet r0 pcol) (some v)) = none := by
            unfold fetchOne at hf
            by_cases hfq : src.failq ptbl pcol (some v) = true
            · rw [if_pos hfq] at hf; cases hf
            · rw [if_neg hfq] at hf; injection hf
          intro p hp
          have hnp := List.find?_eq_none.mp hfind p hp
          revert hnp
          cases sqlEq (rowGet p pcol) (some v) <;> simp
        · exact ih st st' hsc h e h1
      · rename_i p hf
        have hfind :
            (src.rowsOf ptbl).find? (fun r0 => sqlEq (rowGet r0 pcol) (some v)) = some p := by
          unfold fetchOne at hf
          by_cases hfq : src.failq ptbl pcol (some v) = true
          · rw [if_pos hfq] at hf; cases hf
          · rw [if_neg hfq] at hf; injection hf
        have hr : p ∈ src.rowsOf ptbl := List.mem_of_find?_eq_some hfind
        have hpb : sqlEq (rowGet p pcol) (some v) = true := by
          simpa using List.find?_some hfind
        have hpv : rowGet p pcol = some v := sqlEq_some_eq hpb
        split at h
        · rename_i hmem
          rcases List.mem_cons.mp he with h1 | h1
          · subst h1
            show EdgeOK src st'.collected row ptbl fkcol pcol
            have hext := followParents_extends src row rest st st' h
            intro v2 hv2
            rw [hv] at hv2
            injection hv2 with hv2
            subst hv2
            rw [cMem_eq_true_iff] at hmem
            obtain ⟨r'', hr''⟩ := hmem
            obtain ⟨hr''src, hr''key⟩ := hsc _ _ _ hr''
            have heq : r'' = p := uniqueKeys_eq hu hr''src hr hr''key
            refine Or.inl ⟨_, r'', hext.mono _ _ _ hr'', ?_⟩
            rw [heq]
            exact hpv
          · exact ih st st' hsc h e h1
        · rename_i hmem
          have hmem' : cMem st.collected ptbl (rowKey (src.pkOf ptbl) p) = false := by
            revert hmem
            cases cMem st.collected ptbl (rowKey (src.pkOf ptbl) p) <;> simp
          have hins := insertEnqueue_extends src ptbl (src.pkOf ptbl)
            (rowKey (src.pkOf ptbl) p) p st hr rfl hmem'
          have hsc1 : SrcConsistent src
              (insertEnqueue ptbl (src.pkOf ptbl) (rowKey (src.pkOf ptbl) p) p st).collected :=
            srcConsistent_extends hsc hins
          rcases List.mem_cons.mp he with h1 | h1
          · subst h1
            show EdgeOK src st'.collected row ptbl fkcol pcol
            have hext := followParents_extends src row rest _ st' h
            intro v2 hv2
            rw [hv] at hv2
            injection hv2 with hv2
            subst hv2
            refine Or.inl ⟨rowKey (src.pkOf ptbl) p, p, ?_, hpv⟩
            refine hext.mono _ _ _ ?_
            show cLookup (cSet st.collected ptbl (rowKey (src.pkOf ptbl) p) p) ptbl
              (rowKey (src.pkOf ptbl) p) = some p
            rw [cLookup_cSet, if_pos ⟨rfl, rfl⟩]
          · exact ih _ st' hsc1 h e h1

theorem processItem_spec (src : Source) (hu : UniqueKeys src) (t : String) (k : RowKey)
    (st st' : BState) (hsc : SrcConsistent src st.collected)
    (h : processItem src t k st = Except.ok st') :
    ∃ row, cLookup st.collected t k = some row ∧ Extends src st st' ∧
      ParentOK src st'.collected t row := by
  unfold processItem at h
  split at h
  · simp at h
  · rename_i row hrow
    split at h
    · simp at h
    · rename_i st1 hp
      have hedges := followParents_edges src row hu (refGet src.refsMap t) st st1 hsc hp
      have hext1 := followParents_extends src row _ st st1 hp
      have hext2 := followChildren_extends src row _ st1 st' h
      refine ⟨row, hrow, Extends.trans hext1 hext2, ?_⟩
      intro e he
      exact edgeOK_mono (fun a b c hh => hext2.mono a b c hh) (hedges e he)

theorem bfsRun_inv (src : Source) (hu : UniqueKeys src) :
    ∀ (fuel : Nat) (st st' : BState), BInv src st → bfsRun src fuel st = Except.ok st' →
      BInv src st' := by
  intro fuel
  induction fuel with
  | zero =>
    intro st st' hinv h
    simp only [bfsRun] at h
    injection h with h
    subst h
    exact hinv
  | succ n ih =>
    intro st st' hinv h
    simp only [bfsRun] at h
    split at h
    · injection h with h
      subst h
      exact hinv
    · rename_i t pks k rest hq
      split at h
      · simp at h
      · rename_i st1 hp1
        obtain ⟨hsc, hloc⟩ := hinv
        have hsc0 : SrcConsistent src ({ st with queue := rest } : BState).collected := hsc
        obtain ⟨row, hrow, hext, hpok⟩ :=
          processItem_spec src hu t k { st with queue := rest } st1 hsc0 hp1
        refine ih st1 st' ⟨srcConsistent_extends hsc0 hext, ?_⟩ h
        intro t' k' r' hr'
        rcases hext.fresh t' k' r' hr' with h1 | ⟨_, _, hpend⟩
        · rcases hloc t' k' r' h1 with ⟨pks2, hq2⟩ | hpo
          · rw [hq] at hq2
            rcases List.mem_cons.mp hq2 with h2 | h2
            · injection h2 with h2a h2rest
              injection h2rest with h2b h2c
              subst h2a
              subst h2c
              have hre : some row = some r' := hrow.symm.trans h1
              injection hre with hre
              rw [← hre]
              exact Or.inr hpok
            · exact Or.inl ⟨pks2, hext.qmono _ h2⟩
          · exact Or.inr (fun e he => edgeOK_mono hext.mono (hpo e he))
        · exact Or.inl hpend

theorem seedState_fold_inv (src : Source) (root : String) :
    ∀ (seeds : List Row) (st : BState),
      (∀ r ∈ seeds, r ∈ src.rowsOf root) →
      SrcConsistent src st.collected →
      (∀ t k r, cLookup st.collected t k = some r → Pending st t k) →
      SrcConsistent src (seeds.foldl
          (fun st row =>
            { collected := cSet st.collected root (rowKey (src.pkOf root) row) row,
              queue := st.queue ++ [(root, src.pkOf root, rowKey (src.pkOf root) row)] })
          st).collected ∧
      ∀ t k r, cLookup (seeds.foldl
          (fun st row =>
            { collected := cSet st.collected root (rowKey (src.pkOf root) row) row,
              queue := st.queue ++ [(root, src.pkOf root, rowKey (src.pkOf root) row)] })
          st).collected t k = some r →
        Pending (seeds.foldl
          (fun st row =>
            { collected := cSet st.collected root (rowKey (src.pkOf root) row) row,
              queue := st.queue ++ [(root, src.pkOf root, rowKey (src.pkOf root) row)] })
          st) t k := by
  intro seeds
  induction seeds with
  | nil =>
    intro st _ hsc hpend
    exact ⟨hsc, hpend⟩
  | cons s0 rest ih =>
    intro st hs hsc hpend
    simp only [List.foldl_cons]
    refine ih _ (fun r hr => hs r (List.mem_cons_of_mem _ hr)) ?_ ?_
    · intro t k r hr
      have hr' : cLookup (cSet st.collected root (rowKey (src.pkOf root) s0) s0) t k = some r := hr
      rw [cLookup_cSet] at hr'
      by_cases hc : t = root ∧ k = rowKey (src.pkOf root) s0
      · rw [if_pos hc] at hr'
        injection hr' with hr'
        subst hr'
        obtain ⟨hc1, hc2⟩ := hc
        subst hc1
        subst hc2
        exact ⟨hs s0 (List.mem_cons_self _ _), rfl⟩
      · rw [if_neg hc] at hr'
        exact hsc t k r hr'
    · intro t k r hr
      have hr' : cLookup (cSet st.collected root (rowKey (src.pkOf root) s0) s0) t k = some r := hr
      rw [cLookup_cSet] at hr'
      by_cases hc : t = root ∧ k = rowKey (src.pkOf root) s0
      · obtain ⟨hc1, hc2⟩ := hc
        refine ⟨src.pkOf root, ?_⟩
        rw [hc1, hc2]
        exact List.mem_append_right _ (List.mem_singleton.mpr rfl)
      · rw [if_neg hc] at hr'
        obtain ⟨pks2, hp2⟩ := hpend t k r hr'
        exact ⟨pks2, List.mem_append_left _ hp2⟩

theorem seedState_inv (src : Source) (root : String) (seeds : List Row)
    (hs : ∀ r ∈ seeds, r ∈ src.rowsOf root) : BInv src (seedState src root seeds) := by
  unfold seedState
  obtain ⟨h1, h2⟩ := seedState_fold_inv src root seeds ⟨[], []⟩ hs
    (fun t k r hr => by simp [cLookup, cGetTbl, alookup, lookupKey] at hr)
    (fun t k r hr => by simp [cLookup, cGetTbl, alookup, lookupKey] at hr)
  exact ⟨h1, fun t k r hr => Or.inl (h2 t k r hr)⟩

/-! ### Error-freedom and termination -/

theorem followParents_ok_of_nofail (src : Source) (row : Row)
    (hnf : ∀ a b c, src.failq a b c = false) :
    ∀ (es : List RefTriple) (st : BState), ∃ st', followParents src row es st = Except.ok st' := by
  intro es
  induction es with
  | nil => intro st; exact ⟨st, rfl⟩
  | cons e rest ih =>
    obtain ⟨ptbl, fkcol, pcol⟩ := e
    intro st
    simp only [followParents]
    cases hv : rowGet row fkcol with
    | none => exact ih st
    | some v =>
      suffices hsuf : ∃ st',
          (match fetchOne src ptbl pcol (some v) with
            | Except.error e => Except.error e
            | Except.ok none => followParents src row rest st
            | Except.ok (some p) =>
              if cMem st.collected ptbl (rowKey (src.pkOf ptbl) p) = true then
                followParents src row rest st
              else followParents src row rest
                (insertEnqueue ptbl (src.pkOf ptbl) (rowKey (src.pkOf ptbl) p) p st))
            = Except.ok st' by exact hsuf
      have hfq : fetchOne src ptbl pcol (some v) =
          Except.ok ((src.rowsOf ptbl).find? (fun r0 => sqlEq (rowGet r0 pcol) (some v))) := by
        unfold fetchOne
        rw [hnf ptbl pcol (some v)]
        simp
      rw [hfq]
      cases hfind : (src.rowsOf ptbl).find? (fun r0 => sqlEq (rowGet r0 pcol) (some v)) with
      | none => exact ih st
      | some p =>
        suffices hsuf2 : ∃ st',
            (if cMem st.collected ptbl (rowKey (src.pkOf ptbl) p) = true then
              followParents src row rest st
            else followParents src row rest
              (insertEnqueue ptbl (src.pkOf ptbl) (rowKey (src.pkOf ptbl) p) p st))
            = Except.ok st' by exact hsuf2
        cases hmem : cMem st.collected ptbl (rowKey (src.pkOf ptbl) p) with
        | true => exact ih st
        | false => exact ih _

theorem followChildren_ok_of_nofail (src : Source) (row : Row)
    (hnf : ∀ a b c, src.failq a b c = false) :
    ∀ (es : List RefTriple) (st : BState), ∃ st', followChildren src row es st = Except.ok st' := by
  intro es
  induction es with
  | nil => intro st; exact ⟨st, rfl⟩
  | cons e rest ih =>
    obtain ⟨ctbl, cfk, cref⟩ := e
    intro st
    simp only [followChildren]
    cases hv : rowGet row cref with
    | none => exact ih st
    | some v =>
      suffices hsuf : ∃ st',
          (match fetchAll src ctbl cfk (some v) with
            | Except.error e => Except.error e
            | Except.ok children => followChildren src row rest (addChildren src ctbl children st))
            = Except.ok st' by exact hsuf
      have hfq : fetchAll src ctbl cfk (some v) =
          Except.ok ((src.rowsOf ctbl).filter (fun r0 => sqlEq (rowGet r0 cfk) (some v))) := by
        unfold fetchAll
        rw [hnf ctbl cfk (some v)]
        simp
      rw [hfq]
      exact ih _

theorem processItem_ok_of_nofail (src : Source) (hnf : ∀ a b c, src.failq a b c = false)
    (t : String) (k : RowKey) (st : BState) (hm : cMem st.collected t k = true) :
    ∃ st', processItem src t k st = Except.ok st' := by
  rw [cMem_eq_true_iff] at hm
  obtain ⟨row, hrow⟩ := hm
  unfold processItem
  simp only [hrow]
  obtain ⟨st1, h1⟩ := followParents_ok_of_nofail src row hnf (refGet src.refsMap t) st
  simp only [h1]
  exact followChildren_ok_of_nofail src row hnf (refGet src.refsByMap t) st1

theorem bfs_term (src : Source) (hnf : ∀ a b c, src.failq a b c = false) :
    ∀ (fuel : Nat) (st : BState), QueueOK st → bmeasure src st ≤ fuel →
      ∃ st', bfsRun src fuel st = Except.ok st' ∧ st'.queue = [] := by
  intro fuel
  induction fuel with
  | zero =>
    intro st _ hm
    have hq0 : st.queue = [] := by
      have hl : st.queue.length = 0 := by
        unfold bmeasure at hm
        omega
      exact List.length_eq_zero.mp hl
    exact ⟨st, rfl, hq0⟩
  | succ n ih =>
    intro st hq hm
    cases hqe : st.queue with
    | nil =>
      refine ⟨st, ?_, hqe⟩
      simp only [bfsRun, hqe]
    | cons itm rest =>
      obtain ⟨t, pks, k⟩ := itm
      have hmem : cMem st.collected t k = true :=
        hq (t, pks, k) (by rw [hqe]; exact List.mem_cons_self _ _)
      have hq0 : QueueOK ({ st with queue := rest }) := by
        intro itm2 h2
        exact hq itm2 (by rw [hqe]; exact List.mem_cons_of_mem _ h2)
      obtain ⟨st1, h1⟩ := processItem_ok_of_nofail src hnf t k { st with queue := rest } hmem
      obtain ⟨row, hrow, hext⟩ := processItem_extends src t k _ st1 h1
      have hq1 : QueueOK st1 := hext.qok hq0
      have hm1 : bmeasure src st1 ≤ n := by
        have h2 := hext.meas
        have h3 : bmeasure src ({ st with queue := rest } : BState) + 1 = bmeasure src st := by
          show rest.length + 2 * missing src st.collected + 1
              = st.queue.length + 2 * missing src st.collected
          rw [hqe]
          simp only [List.length_cons]
          omega
        omega
      obtain ⟨st', h', hqf⟩ := ih st1 hq1 hm1
      refine ⟨st', ?_, hqf⟩
      simp only [bfsRun, hqe, h1]
      exact h'

theorem bfsRun_empty_queue (src : Source) (fuel : Nat) (st : BState) (h : st.queue = []) :
    bfsRun src fuel st = Except.ok st := by
  cases fuel with
  | zero => rfl
  | succ n => simp only [bfsRun, h]

/-! ### Materializer lemmas -/

theorem insOf_append (t : String) (a b : List Ev) :
    insOf t (a ++ b) = insOf t a ++ insOf t b := by
  induction a with
  | nil => rfl
  | cons e rest ih =>
    cases e with
    | ins t' r ok =>
      by_cases h : t' = t
      · simp [insOf, h, ih]
      · simp [insOf, h, ih]
    | setFK b0 => simp [insOf, ih]
    | trunc a0 b0 => simp [insOf, ih]
    | commit => simp [insOf, ih]

theorem insOf_commit_cons (t : String) (evs : List Ev) :
    insOf t (Ev.commit :: evs) = insOf t evs := rfl

theorem insOf_attemptRows_self (insOk : String → Row → Bool) (t : String) :
    ∀ rs : List Row, insOf t (attemptRows insOk t rs) = attemptRows insOk t rs := by
  intro rs
  induction rs with
  | nil => rfl
  | cons r rest ih => simp [attemptRows, insOf, ih]

theorem insOf_attemptRows_ne (insOk : String → Row → Bool) {t u : String} (hne : u ≠ t) :
    ∀ rs : List Row, insOf t (attemptRows insOk u rs) = [] := by
  intro rs
  induction rs with
  | nil => rfl
  | cons r rest ih => simp [attemptRows, insOf, hne, ih]

theorem attemptRows_length (insOk : String → Row → Bool) (t : String) :
    ∀ rs : List Row, (attemptRows insOk t rs).length = rs.length := by
  intro rs
  induction rs with
  | nil => rfl
  | cons r rest ih => simp [attemptRows, ih]

theorem okInsRows_append (t : String) (a b : List Ev) :
    okInsRows t (a ++ b) = okInsRows t a ++ okInsRows t b := by
  induction a with
  | nil => rfl
  | cons e rest ih =>
    cases e with
    | ins t' r ok =>
      by_cases h : t' = t ∧ ok = true
      · simp [okInsRows, h, ih]
      · simp [okInsRows, h, ih]
    | setFK b0 => simp [okInsRows, ih]
    | trunc a0 b0 => simp [okInsRows, ih]
    | commit => simp [okInsRows, ih]

theorem okInsRows_commit_cons (t : String) (evs : List Ev) :
    okInsRows t (Ev.commit :: evs) = okInsRows t evs := rfl

theorem okInsRows_attemptRows_self (insOk : String → Row → Bool) (t : String) :
    ∀ rs : List Row, okInsRows t (attemptRows insOk t rs) = rs.filter (insOk t) := by
  intro rs
  induction rs with
  | nil => rfl
  | cons r rest ih =>
    cases hok : insOk t r with
    | true =>
      simp only [attemptRows, hok, okInsRows, ih]
      rw [if_pos (by simp), List.filter_cons_of_pos hok]
    | false =>
      simp only [attemptRows, hok, okInsRows, ih]
      rw [if_neg (by simp), List.filter_cons_of_neg (by simp [hok])]

theorem okInsRows_attemptRows_ne (insOk : String → Row → Bool) {t u : String} (hne : u ≠ t) :
    ∀ rs : List Row, okInsRows t (attemptRows insOk u rs) = [] := by
  intro rs
  induction rs with
  | nil => rfl
  | cons r rest ih => simp [attemptRows, okInsRows, hne, ih]

theorem insOf_materialize_length (insOk : String → Row → Bool) (coll : Collected) (t : String) :
    ∀ ts : List String,
      (insOf t (materialize insOk coll ts)).length = ts.count t * (cGetTbl coll t).length := by
  intro ts
  induction ts with
  | nil => simp [materialize, insOf]
  | cons u rest ih =>
    simp only [materialize]
    rw [insOf_append, insOf_commit_cons, List.length_append, ih, List.count_cons]
    by_cases hu : u = t
    · subst hu
      rw [insOf_attemptRows_self, attemptRows_length]
      simp [Nat.add_mul]
      ring
    · rw [insOf_attemptRows_ne insOk hu]
      simp [hu]

theorem insOf_materialize_not_mem (insOk : String → Row → Bool) (coll : Collected) (t : String) :
    ∀ ts : List String, t ∉ ts → insOf t (materialize insOk coll ts) = [] := by
  intro ts
  induction ts with
  | nil => intro _; rfl
  | cons u rest ih =>
    intro h
    have hu : u ≠ t := fun hh => h (hh ▸ List.mem_cons_self _ _)
    simp only [materialize]
    rw [insOf_append, insOf_commit_cons, insOf_attemptRows_ne insOk hu,
      ih (fun hh => h (List.mem_cons_of_mem _ hh)), List.append_nil]

theorem okInsRows_materialize_not_mem (insOk : String → Row → Bool) (coll : Collected)
    (t : String) :
    ∀ ts : List String, t ∉ ts → okInsRows t (materialize insOk coll ts) = [] := by
  intro ts
  induction ts with
  | nil => intro _; rfl
  | cons u rest ih =>
    intro h
    have hu : u ≠ t := fun hh => h (hh ▸ List.mem_cons_self _ _)
    simp only [materialize]
    rw [okInsRows_append, okInsRows_commit_cons, okInsRows_attemptRows_ne insOk hu,
      ih (fun hh => h (List.mem_cons_of_mem _ hh)), List.append_nil]

theorem okInsRows_materialize (insOk : String → Row → Bool) (coll : Collected) (t : String) :
    ∀ ts : List String, ts.count t = 1 →
      okInsRows t (materialize insOk coll ts)
        = ((cGetTbl coll t).map Prod.snd).filter (insOk t) := by
  intro ts
  induction ts with
  | nil => intro h; simp at h
  | cons u rest ih =>
    intro hc
    simp only [materialize]
    rw [okInsRows_append, okInsRows_commit_cons]
    rw [List.count_cons] at hc
    by_cases hu : u = t
    · subst hu
      have hc0 : rest.count u = 0 := by simp at hc; omega
      rw [okInsRows_attemptRows_self,
        okInsRows_materialize_not_mem insOk coll u rest (List.count_eq_zero.mp hc0),
        List.append_nil]
    · have hc1 : rest.count t = 1 := by simp [hu] at hc; omega
      rw [okInsRows_attemptRows_ne insOk hu, ih hc1, List.nil_append]

theorem materialize_block (insOk : String → Row → Bool) (coll : Collected) :
    ∀ (ts : List String) (t : String), ts.count t = 1 →
      ∃ pre post, materialize insOk coll ts
          = pre ++ (attemptRows insOk t ((cGetTbl coll t).map Prod.snd) ++ (Ev.commit :: post))
        ∧ insOf t pre = [] ∧ insOf t post = [] := by
  intro ts
  induction ts with
  | nil => intro t h; simp at h
  | cons u rest ih =>
    intro t hc
    rw [List.count_cons] at hc
    by_cases hu : u = t
    · subst hu
      have hc0 : rest.count u = 0 := by simp at hc; omega
      refine ⟨[], materialize insOk coll rest, by simp [materialize], rfl, ?_⟩
      exact insOf_materialize_not_mem insOk coll u rest (List.count_eq_zero.mp hc0)
    · have hc1 : rest.count t = 1 := by simp [hu] at hc; omega
      obtain ⟨pre, post, heq, hpre, hpost⟩ := ih t hc1
      refine ⟨attemptRows insOk u ((cGetTbl coll u).map Prod.snd) ++ (Ev.commit :: pre),
        post, ?_, ?_, hpost⟩
      · simp only [materialize, heq]
        simp [List.append_assoc]
      · rw [insOf_append, insOf_commit_cons, insOf_attemptRows_ne insOk hu, hpre]
        rfl

/-! ### Bridge lemmas for finite checking -/

theorem nodupKeys_of_entries {c : Collected}
    (h : ∀ p ∈ c, (p.2.map Prod.fst).Nodup) : NodupKeys c := by
  intro t
  unfold cGetTbl
  cases hl : alookup c t with
  | none => simp
  | some tb => simpa using h (t, tb) (alookup_mem hl)

theorem uniqueKeys_of_entries {src : Source}
    (h : ∀ p ∈ src.tables, ((src.rowsOf p.1).map (rowKey (src.pkOf p.1))).Nodup) :
    UniqueKeys src := by
  intro t
  cases hl : alookup src.tables t with
  | none =>
    unfold Source.rowsOf
    rw [hl]
    simp
  | some rs =>
    have hmem := h (t, rs) (alookup_mem hl)
    simpa using hmem

theorem ins_not_in_clear (tgtTables : List String) (truncOk : String → Bool)
    (t : String) (r : Row) (ok : Bool) :
    Ev.ins t r ok ∉ clear_target_database tgtTables truncOk ++ [Ev.commit] := by
  intro hmem
  rcases List.mem_append.mp hmem with h1 | h1
  · unfold clear_target_database at h1
    rcases List.mem_cons.mp h1 with h2 | h2
    · cases h2
    · rcases List.mem_append.mp h2 with h3 | h3
      · obtain ⟨x, _, hx⟩ := List.mem_map.mp h3
        cases hx
      · rw [List.mem_singleton] at h3
        cases h3
  · rw [List.mem_singleton] at h1
    cases h1

/-! ### Claim theorems -/

/-- Claim C2: for every finite source database the BFS traversal terminates,
including on self-referencing and cyclic FK graphs: whenever no source query
fails, every queued item has its row collected, and the fuel covers the
measure (queue length plus twice the uncollected source pairs), the worklist
loop reaches the empty queue and returns normally. -/
theorem bfs_termination (src : Source) (fuel : Nat) (st : BState)
    (hnf : ∀ a b c, src.failq a b c = false)
    (hq : QueueOK st)
    (hfuel : bmeasure src st ≤ fuel) :
    ∃ st', bfsRun src fuel st = Except.ok st' ∧ st'.queue = [] :=
  bfs_term src hnf fuel st hq hfuel

/-- Witness for C2 on the cyclic employees table `e.mid → e.id` with a
two-cycle of managers. -/
theorem bfs_termination_witness :
    ∃ st', bfsRun exCyc 9 exCycSt = Except.ok st' ∧ st'.queue = [] :=
  bfs_termination exCyc 9 exCycSt (fun _ _ _ => rfl) (by unfold QueueOK; decide) (by decide)

/-- Claim C3 (counterexample): `get_pk` does not fail when the queried table
does not exist (`"ghost"`) or carries no PRIMARY constraint (`"x"` with only a
UNIQUE constraint); it returns the empty list as a normal result in both
cases, contradicting the claimed `SchemaError`. -/
theorem get_pk_returns_empty_not_error :
    get_pk exSrc.kcu "ghost" = [] ∧ get_pk [⟨"x", "UNIQUE", "id", 1⟩] "x" = [] := by
  constructor <;> rfl

/-- Claim C3 (amended): when no catalog row pairs the queried table with the
PRIMARY constraint — the table is unknown or has no primary key — `get_pk`
returns the empty list and raises nothing. -/
theorem get_pk_empty_of_no_primary (kcu : List KCURow) (table : String)
    (h : ∀ r ∈ kcu, ¬(r.table_name = table ∧ r.constraint_name = "PRIMARY")) :
    get_pk kcu table = [] := by
  unfold get_pk
  have hfil : kcu.filter
      (fun r => decide (r.table_name = table) && decide (r.constraint_name = "PRIMARY")) = [] := by
    rw [List.filter_eq_nil_iff]
    intro a ha
    simp only [Bool.and_eq_true, decide_eq_true_eq]
    exact h a ha
  rw [hfil]
  rfl

/-- Witness for the amended C3. -/
theorem get_pk_empty_of_no_primary_witness : get_pk exSrc.kcu "zz" = [] :=
  get_pk_empty_of_no_primary exSrc.kcu "zz" (by decide)

/-- Claim C4: during the BFS loop the Collected Set only gains entries — every
run of the loop preserves each existing `(table, Row Key) ↦ row` binding —
and per-table keys stay duplicate-free. -/
theorem collected_monotone (src : Source) (fuel : Nat) (st stf : BState)
    (hrun : bfsRun src fuel st = Except.ok stf) :
    (∀ t k r, cLookup st.collected t k = some r → cLookup stf.collected t k = some r) ∧
    (NodupKeys st.collected → NodupKeys stf.collected) :=
  ⟨(bfsRun_pres src fuel st stf hrun).1, (bfsRun_pres src fuel st stf hrun).2.1⟩

/-- Witness for C4: the seeded customer row survives the example run. -/
theorem collected_monotone_witness :
    cLookup exFinal.collected "c" [some (Lit.n 1)]
      = some [("id", some (Lit.n 1)), ("city", some (Lit.s "S"))] :=
  (collected_monotone exSrc 8 (seedState exSrc "c" exSeeds) exFinal rfl).1 "c"
    [some (Lit.n 1)] [("id", some (Lit.n 1)), ("city", some (Lit.s "S"))] rfl

/-- Claim C5: when a dequeued row carries a non-null FK value whose parent
does not exist in the source, the loop body does not raise and continues; the
referencing row stays collected and no row carrying the dangling value ever
appears in the referenced table's collected slice. -/
theorem dangling_fk_skipped (src : Source) (t : String) (k : RowKey) (st : BState) (row : Row)
    (ptbl fkcol pcol : String) (v : Lit)
    (hnf : ∀ a b c, src.failq a b c = false)
    (hrow : cLookup st.collected t k = some row)
    (hedge : (ptbl, fkcol, pcol) ∈ refGet src.refsMap t)
    (hv : rowGet row fkcol = some v)
    (hmiss : ∀ p ∈ src.rowsOf ptbl, sqlEq (rowGet p pcol) (some v) = false)
    (hbefore : ∀ e ∈ cGetTbl st.collected ptbl, ¬ rowGet e.2 pcol = some v) :
    ∃ st', processItem src t k st = Except.ok st'
      ∧ cLookup st'.collected t k = some row
      ∧ ∀ e ∈ cGetTbl st'.collected ptbl, ¬ rowGet e.2 pcol = some v := by
  obtain ⟨st', h⟩ := processItem_ok_of_nofail src hnf t k st
    (by rw [cMem_eq_true_iff]; exact ⟨row, hrow⟩)
  obtain ⟨row2, hrow2, hext⟩ := processItem_extends src t k st st' h
  refine ⟨st', h, hext.mono t k row hrow, ?_⟩
  intro e he hc
  rcases hext.memNew ptbl e he with h1 | h1
  · exact hbefore e h1 hc
  · have hm2 := hmiss e.2 h1
    rw [sqlEq_of_eq_some hc] at hm2
    cases hm2

/-- Witness for C5: the order with `cid = 9` pointing at a deleted customer. -/
theorem dangling_fk_skipped_witness :
    ∃ st', processItem exDangling "o" [some (Lit.n 10)] exDanglingSt = Except.ok st'
      ∧ cLookup st'.collected "o" [some (Lit.n 10)] = some exDanglingRow
      ∧ ∀ e ∈ cGetTbl st'.collected "c", ¬ rowGet e.2 "id" = some (Lit.n 9) :=
  dangling_fk_skipped exDangling "o" [some (Lit.n 10)] exDanglingSt exDanglingRow
    "c" "cid" "id" (Lit.n 9) (fun _ _ _ => rfl) rfl (by decide) rfl (by decide) (by decide)

/-- Claim C8: the Materializer's table order is `list(collected.keys())`
sorted by ascending count of outgoing FK edges (`len(references.get(t, []))`),
i.e. the result is sorted under that key and is a permutation of the collected
tables. -/
theorem materialize_order_sorted (m : RefMap) (coll : Collected) :
    List.Sorted (tblLe m) (ordered_tables m coll) ∧
    (ordered_tables m coll).Perm (coll.map Prod.fst) := by
  constructor
  · haveI h1 : IsTotal String (tblLe m) := ⟨fun a b => Nat.le_total _ _⟩
    haveI h2 : IsTrans String (tblLe m) := ⟨fun a b c hab hbc => Nat.le_trans hab hbc⟩
    exact List.sorted_insertionSort _ _
  · exact List.perm_insertionSort _ _

/-- Claim C1: closure completeness — after the BFS runs to an empty queue from
the seeded state, every collected row's non-null outgoing FK value either has
a row carrying that referenced-column value in the final Collected Set, or no
source row of the referenced table carries it.  Assumes the source is a
well-formed database (Row Keys identify rows within each table) and the seeds
come from the root table. -/
theorem closure_completeness (src : Source) (root : String) (seeds : List Row)
    (fuel : Nat) (stf : BState)
    (huk : UniqueKeys src)
    (hseeds : ∀ r ∈ seeds, r ∈ src.rowsOf root)
    (hrun : bfsRun src fuel (seedState src root seeds) = Except.ok stf)
    (hqe : stf.queue = [])
    (t : String) (k : RowKey) (r : Row)
    (hr : cLookup stf.collected t k = some r)
    (ptbl fkcol pcol : String)
    (hedge : (ptbl, fkcol, pcol) ∈ refGet src.refsMap t)
    (v : Lit) (hv : rowGet r fkcol = some v) :
    (∃ k' r', cLookup stf.collected ptbl k' = some r' ∧ rowGet r' pcol = some v) ∨
    ∀ p ∈ src.rowsOf ptbl, sqlEq (rowGet p pcol) (some v) = false := by
  have hinv := bfsRun_inv src huk fuel _ stf (seedState_inv src root seeds hseeds) hrun
  rcases hinv.2 t k r hr with ⟨pks, hp⟩ | hpok
  · rw [hqe] at hp
    simp at hp
  · exact hpok (ptbl, fkcol, pcol) hedge v hv

/-- Witness for C1: the collected order's parent customer is in the closure. -/
theorem closure_completeness_witness :
    (∃ k' r', cLookup exFinal.collected "c" k' = some r' ∧ rowGet r' "id" = some (Lit.n 1)) ∨
    ∀ p ∈ exSrc.rowsOf "c", sqlEq (rowGet p "id") (some (Lit.n 1)) = false :=
  closure_completeness exSrc "c" exSeeds 8 exFinal
    (uniqueKeys_of_entries (by decide)) (by decide) rfl rfl
    "o" [some (Lit.n 10)] [("id", some (Lit.n 10)), ("cid", some (Lit.n 1))] rfl
    "c" "cid" "id" (by decide) (Lit.n 1) rfl

/-- Claim C9: when a table's PK lookup is empty, every row of that table keys
to the empty tuple, so the table's collected slice never exceeds one row
during traversal and at most one insert of that table is ever attempted
against the target. -/
theorem empty_pk_collapse (src : Source) (fuel : Nat) (st stf : BState) (tn : String)
    (hpk : src.pkOf tn = [])
    (hinit : EmptyPkInv tn st.collected)
    (hrun : bfsRun src fuel st = Except.ok stf) :
    (∀ r, rowKey (src.pkOf tn) r = []) ∧
    EmptyPkInv tn stf.collected ∧
    ∀ (insOk : String → Row → Bool) (ts : List String), ts.count tn ≤ 1 →
      (insOf tn (materialize insOk stf.collected ts)).length ≤ 1 := by
  have hp := (bfsRun_pres src fuel st stf hrun).2.2.1 tn hpk hinit
  refine ⟨fun r => by rw [hpk]; rfl, hp, ?_⟩
  intro insOk ts hc
  rw [insOf_materialize_length]
  calc ts.count tn * (cGetTbl stf.collected tn).length
      ≤ 1 * 1 := Nat.mul_le_mul hc hp.2
    _ = 1 := by norm_num

/-- Witness for C9: the PK-less table `n` ends the run with at most one row. -/
theorem empty_pk_collapse_witness :
    (cGetTbl exNoPkFinal.collected "n").length ≤ 1 :=
  (empty_pk_collapse exNoPk 8 exNoPkSt exNoPkFinal "n" rfl
    (by unfold EmptyPkInv; decide) rfl).2.1.2

/-- Claim C6: if a source row-fetch raises during BFS traversal, the exception
propagates out of `main` — the run's target trace stops at the pre-run clear
and commit, the error escapes, and no insert event ever occurs (materialization
never begins). -/
theorem fetch_error_aborts (src : Source) (root : String) (cf : Sum Val (List Val))
    (tgtTables : List String) (truncOk : String → Bool) (insOk : String → Row → Bool)
    (fuel : Nat) (e : BErr)
    (h : bfsRun src fuel (seedState src root (seedQuery src root cf)) = Except.error e) :
    mainRun src root cf tgtTables truncOk insOk fuel
      = (clear_target_database tgtTables truncOk ++ [Ev.commit], some e) ∧
    ∀ t r ok, Ev.ins t r ok ∉ (mainRun src root cf tgtTables truncOk insOk fuel).1 := by
  have hne : ¬ (seedQuery src root cf).isEmpty = true := by
    intro hempty
    rw [List.isEmpty_iff] at hempty
    rw [hempty] at h
    rw [bfsRun_empty_queue src fuel _ rfl] at h
    cases h
  have heq : mainRun src root cf tgtTables truncOk insOk fuel
      = (clear_target_database tgtTables truncOk ++ [Ev.commit], some e) := by
    unfold mainRun
    rw [if_neg hne, h]
  refine ⟨heq, ?_⟩
  intro t r ok
  rw [heq]
  exact ins_not_in_clear tgtTables truncOk t r ok

/-- Witness for C6: every query on the orders table fails, so the BFS aborts
with a fetch error and the target sees only the clear and its commit. -/
theorem fetch_error_aborts_witness :
    mainRun exFail "c" (Sum.inl (some (Lit.s "S"))) ["c", "o"] (fun _ => true)
        (fun _ _ => true) 8
      = (clear_target_database ["c", "o"] (fun _ => true) ++ [Ev.commit],
          some BErr.fetchErr) :=
  (fetch_error_aborts exFail "c" (Sum.inl (some (Lit.s "S"))) ["c", "o"] (fun _ => true)
    (fun _ _ => true) 8 BErr.fetchErr rfl).1

/-- Claim C7: one row's insert failure is caught and skipped: the trace still
contains the full block of the table's attempts followed by exactly its one
commit, no other events of that table occur elsewhere, and the successfully
inserted rows are exactly those the target accepts — independent of any other
row's failure. -/
theorem insert_failure_isolated (insOk : String → Row → Bool) (coll : Collected)
    (ts : List String) (t : String) (hcount : ts.count t = 1) :
    (∃ pre post, materialize insOk coll ts
        = pre ++ (attemptRows insOk t ((cGetTbl coll t).map Prod.snd) ++ (Ev.commit :: post))
      ∧ insOf t pre = [] ∧ insOf t post = []) ∧
    okInsRows t (materialize insOk coll ts)
      = ((cGetTbl coll t).map Prod.snd).filter (insOk t) :=
  ⟨materialize_block insOk coll ts t hcount, okInsRows_materialize insOk coll t ts hcount⟩

/-- Witness for C7: order 10 fails to insert, order 11 still lands. -/
theorem insert_failure_isolated_witness :
    okInsRows "o" (materialize exInsOk exColl ["c", "o"])
      = ((cGetTbl exColl "o").map Prod.snd).filter (exInsOk "o") :=
  (insert_failure_isolated exInsOk exColl ["c", "o"] "o" (by decide)).2

/-- Claim C10: the target is cleared (FK checks disabled, all tables
truncated, FK checks re-enabled) and committed before the seed query runs; if
the city filter matches no root rows the run stops there — nothing is
inserted, but the clear has still happened. -/
theorem empty_seed_still_clears (src : Source) (root : String) (cf : Sum Val (List Val))
    (tgtTables : List String) (truncOk : String → Bool) (insOk : String → Row → Bool)
    (fuel : Nat)
    (h : seedQuery src root cf = []) :
    mainRun src root cf tgtTables truncOk insOk fuel
      = (Ev.setFK false :: (tgtTables.map (fun t => Ev.trunc t (truncOk t)) ++ [Ev.setFK true])
          ++ [Ev.commit], none) ∧
    ∀ t r ok, Ev.ins t r ok ∉ (mainRun src root cf tgtTables truncOk insOk fuel).1 := by
  have heq : mainRun src root cf tgtTables truncOk insOk fuel
      = (clear_target_database tgtTables truncOk ++ [Ev.commit], none) := by
    unfold mainRun
    rw [h]
    rfl
  refine ⟨by rw [heq]; rfl, ?_⟩
  intro t r ok
  rw [heq]
  exact ins_not_in_clear tgtTables truncOk t r ok

/-- Witness for C10: a NULL city filter matches no rows (SQL `=` with NULL),
yet the target trace still holds the full clear and its commit. -/
theorem empty_seed_still_clears_witness :
    mainRun exSrc "c" (Sum.inl (none : Val)) ["c", "o"] (fun _ => true) (fun _ _ => true) 8
      = (Ev.setFK false :: (["c", "o"].map (fun t => Ev.trunc t true) ++ [Ev.setFK true])
          ++ [Ev.commit], none) := by
  have h := (empty_seed_still_clears exSrc "c" (Sum.inl (none : Val)) ["c", "o"]
    (fun _ => true) (fun _ _ => true) 8 rfl).1
  simpa using h
